import Mathlib

/-!
Shallow embedding of the typed-index and region-arithmetic core of the
`bitvec` crate (`src/index.rs`): the counter types `BitIdx`, `BitTail`,
`BitPos`, `BitSel`, `BitMask` parameterised by a register width, and the
region algebra `offset` and `span`.

Modelling conventions:
* A register kind `R` (`u8`/`u16`/`u32`/`u64`) is modelled by the record
  `Reg`, carrying `INDX = log2 BITS` with `3 ≤ INDX ≤ 6`; `BITS = 2 ^ INDX`
  and `MASK = BITS - 1` are derived, as in the `BitRegister` capability.
* The wrapped `u8` counters are modelled as `Nat`, with an explicit
  `% 256` wherever the Rust code performs a `u8` cast or a wrapping `u8`
  operation.
* `usize` values are modelled as `Nat`; `isize` values as `Int`, with
  explicit two's-complement wrapping at 64 bits (`wordBits = 64`) where
  the code uses `overflowing_add` or an `as usize` / `as isize` cast.
* Fallible constructors return `Except` / `Option`, matching the source.
-/

/-- The number of bits in a machine word (`usize` / `isize`). -/
def wordBits : Nat := 64

/-- A register kind: one of the primitive unsigned widths 8/16/32/64.
`indx` is the base-2 logarithm of the width (`R::INDX`). -/
structure Reg where
  indx : Nat
  indx_lb : 3 ≤ indx
  indx_ub : indx ≤ 6

namespace Reg

/-- `R::BITS`: the width of the register, always `2 ^ INDX`. -/
def BITS (r : Reg) : Nat := 2 ^ r.indx

/-- `R::MASK = R::BITS - 1`, the and-mask for reduction modulo `BITS`. -/
def MASK (r : Reg) : Nat := r.BITS - 1

/-- `R::ALL`: the all-ones value of the register width. -/
def ALL (r : Reg) : Nat := 2 ^ r.BITS - 1

theorem BITS_pos (r : Reg) : 0 < r.BITS := Nat.pos_pow_of_pos _ (by decide)

theorem BITS_le_64 (r : Reg) : r.BITS ≤ 64 := by
  have h := r.indx_ub
  calc r.BITS = 2 ^ r.indx := rfl
    _ ≤ 2 ^ 6 := Nat.pow_le_pow_right (by decide) h
    _ = 64 := by decide

theorem BITS_dvd_256 (r : Reg) : r.BITS ∣ 256 := by
  have h : (256 : Nat) = 2 ^ 8 := by decide
  rw [h]
  exact pow_dvd_pow 2 (Nat.le_trans r.indx_ub (by decide))

end Reg

/-- The `u8` register kind. -/
def regU8 : Reg := ⟨3, by decide, by decide⟩

/-- The `u16` register kind. -/
def regU16 : Reg := ⟨4, by decide, by decide⟩

/-- The `u32` register kind. -/
def regU32 : Reg := ⟨5, by decide, by decide⟩

/-- The `u64` register kind. -/
def regU64 : Reg := ⟨6, by decide, by decide⟩

namespace BitIdx

/-- `BitIdx::new`: checked construction of a semantic index.  Rejects
`value >= R::BITS` with a `BitIdxErr` carrying the offending byte
(`BitIdxErr::new(value)` stores `value` in its `err` field). -/
def new (r : Reg) (value : Nat) : Except Nat Nat :=
  if value ≥ r.BITS then Except.error value else Except.ok value

/-- `BitIdx::next`: increments the `u8` counter (wrapping `u8` addition,
modelled by `% 256`), masks it into the ring `0 .. BITS`, and reports a
carry when the incremented counter equals `R::BITS`. -/
def next (r : Reg) (idx : Nat) : Nat × Bool :=
  let nx := (idx + 1) % 256
  (nx &&& r.MASK, nx == r.BITS)

/-- `BitIdx::prev`: `u8` `wrapping_sub(1)` (modelled by `+ 255 % 256`),
masked into the ring, with a borrow exactly when the counter was `0`. -/
def prev (r : Reg) (idx : Nat) : Nat × Bool :=
  let pv := (idx + 255) % 256
  (pv &&& r.MASK, idx == 0)

end BitIdx

namespace BitTail

/-- `BitTail::new`: checked construction of a tail marker; accepts any
`value <= R::BITS` (including the one-past-the-end value `BITS` itself). -/
def new (r : Reg) (value : Nat) : Option Nat :=
  if value > r.BITS then none else some value

/-- `BitTail::span`: region-span arithmetic.  From a dead-bit marker and a
bit length (`usize`), computes the number of registers holding live bits
and the tail marker after the region.  `u8` casts in the source
(`len as u8`, the `u8` addition `head + len as u8`) are modelled by
explicit `% 256`. -/
def span (r : Reg) (t : Nat) (len : Nat) : Nat × Nat :=
  if len = 0 then (0, t)
  else
    let head := t &&& r.MASK
    let bits_in_head := r.BITS - head
    if len ≤ bits_in_head then
      (1, (head + len % 256) % 256)
    else
      let bits_after_head := len - bits_in_head
      let elts := bits_after_head >>> r.indx
      let tail := (bits_after_head % 256) &&& r.MASK
      let is_zero : Nat := if tail = 0 then 1 else 0
      let edges := 2 - is_zero
      (elts + edges, ((is_zero <<< r.indx) % 256) ||| tail)

end BitTail

namespace BitIdx

/-- `BitIdx::span`: delegates to `BitTail::span`, re-wrapping the index's
numeric value as a tail via `BitTail::new_unchecked`. -/
def span (r : Reg) (idx : Nat) (len : Nat) : Nat × Nat :=
  BitTail.span r idx len

end BitIdx

/-- Two's-complement interpretation of a 64-bit unsigned value
(the `as isize` cast on a `usize`). -/
def toSigned64 (n : Nat) : Int :=
  if n < 2 ^ 63 then (n : Int) else (n : Int) - 2 ^ 64

/-- Wraps an unbounded integer into the signed 64-bit range
`[-2^63, 2^63)`; this is the value produced by wrapping `isize`
arithmetic. -/
def wrap64 (x : Int) : Int := (x + 2 ^ 63) % 2 ^ 64 - 2 ^ 63

/-- `isize::overflowing_add`: the wrapped sum together with a flag that is
true exactly when the mathematical sum left the signed 64-bit range. -/
def overflowingAdd (a b : Int) : Int × Bool :=
  (wrap64 (a + b), decide (wrap64 (a + b) ≠ a + b))

namespace BitIdx

/-- `BitIdx::offset`: signed bit-distance jump.  Computes the register
delta (an `isize`) and the destination index.  Arithmetic right shift of
an `isize` is floor division by `2 ^ INDX` (`Int.fdiv`); the `as u8` and
`as usize` casts are explicit `emod`s; `as isize` of the logically
shifted `usize` is `toSigned64`. -/
def offset (r : Reg) (idx : Nat) (by_ : Int) : Int × Nat :=
  let val : Int := (idx : Int)
  let p := overflowingAdd by_ val
  let far := p.1
  if p.2 = false then
    if 0 ≤ far ∧ far < (r.BITS : Int) then
      (0, far.toNat)
    else
      (Int.fdiv far (2 ^ r.indx), (far % 256).toNat &&& r.MASK)
  else
    let farU := (far % 2 ^ 64).toNat
    (toSigned64 (farU >>> r.indx), (farU % 256) &&& r.MASK)

end BitIdx

namespace BitPos

/-- `BitPos::select`: the one-hot selector `1 << pos`. -/
def select (pos : Nat) : Nat := 1 <<< pos

/-- `BitPos::range_all`: every electrical position `0 .. BITS`
(materialised as a list; the Rust iterator is lazy but finite). -/
def range_all (r : Reg) : List Nat := List.range r.BITS

end BitPos

namespace BitSel

/-- Population count of a natural number (`R::count_ones`). -/
def count_ones (n : Nat) : Nat :=
  if n = 0 then 0 else n % 2 + count_ones (n / 2)
decreasing_by exact Nat.div_lt_self (Nat.pos_of_ne_zero (by assumption)) (by decide)

/-- `BitSel::new`: accepts exactly the one-hot register values, returning
the sentinel `none` (not an error type) otherwise. -/
def new (x : Nat) : Option Nat :=
  if count_ones x ≠ 1 then none else some x

/-- `BitSel::range_all`: all one-hot selectors, produced by mapping
`BitPos::select` over `BitPos::range_all`. -/
def range_all (r : Reg) : List Nat :=
  (BitPos.range_all r).map BitPos.select

end BitSel

namespace BitMask

/-- `BitMask::ZERO`. -/
def ZERO : Nat := 0

/-- `BitMask::test`: whether the mask is set high at the selector. -/
def test (m s : Nat) : Bool := (m &&& s) != 0

/-- `BitMask::insert`: sets the selector bit high (functional rendering of
the `&mut self` update `self.mask |= sel.sel`). -/
def insert (m s : Nat) : Nat := m ||| s

/-- `BitMask::combine`: a copy of the mask with the selector bit set. -/
def combine (m s : Nat) : Nat := m ||| s

/-- The `Sum<BitSel<R>>` impl: fold a sequence of selectors into a mask,
starting from `ZERO` and combining each in turn. -/
def sum (sels : List Nat) : Nat := sels.foldl combine ZERO

/-- The `Not` impl for `BitMask`: bitwise complement at the register
width, i.e. `xor` with `R::ALL`. -/
def rnot (r : Reg) (m : Nat) : Nat := m ^^^ r.ALL

end BitMask

/-! ### Basic facts about the register-width arithmetic -/

theorem reg_and_MASK (r : Reg) (x : Nat) : x &&& r.MASK = x % r.BITS :=
  Nat.and_pow_two_sub_one_eq_mod x r.indx

theorem reg_shiftRight (r : Reg) (x : Nat) : x >>> r.indx = x / r.BITS :=
  Nat.shiftRight_eq_div_pow x r.indx

theorem reg_head_lt (r : Reg) (t : Nat) : t % r.BITS < r.BITS :=
  Nat.mod_lt _ r.BITS_pos

/-- Branch-free restatement of `BitTail::span` with the `u8` casts and
bit-operations resolved into plain arithmetic modulo `BITS`. -/
theorem span_eq_alt (r : Reg) (t len : Nat) :
    BitTail.span r t len =
      if len = 0 then (0, t)
      else if len ≤ r.BITS - t % r.BITS then (1, t % r.BITS + len)
      else if (len - (r.BITS - t % r.BITS)) % r.BITS = 0 then
        ((len - (r.BITS - t % r.BITS)) / r.BITS + 1, r.BITS)
      else
        ((len - (r.BITS - t % r.BITS)) / r.BITS + 2,
          (len - (r.BITS - t % r.BITS)) % r.BITS) := by
  have hB := r.BITS_pos
  have hB64 := r.BITS_le_64
  have hhead := reg_head_lt r t
  simp only [BitTail.span, reg_and_MASK, reg_shiftRight]
  by_cases h0 : len = 0
  · simp [h0]
  · rw [if_neg h0, if_neg h0]
    by_cases h1 : len ≤ r.BITS - t % r.BITS
    · rw [if_pos h1, if_pos h1]
      rw [Nat.mod_eq_of_lt (show len < 256 by omega),
        Nat.mod_eq_of_lt (show t % r.BITS + len < 256 by omega)]
    · rw [if_neg h1, if_neg h1]
      rw [Nat.mod_mod_of_dvd _ r.BITS_dvd_256]
      by_cases h2 : (len - (r.BITS - t % r.BITS)) % r.BITS = 0
      · rw [if_pos h2, if_pos h2, h2]
        have hsh : (1 : Nat) <<< r.indx = r.BITS := by
          rw [Nat.shiftLeft_eq, Nat.one_mul]; rfl
        rw [hsh, Nat.or_zero, Nat.mod_eq_of_lt (show r.BITS < 256 by omega)]
      · rw [if_neg h2, if_neg h2]
        rw [Nat.zero_shiftLeft, Nat.zero_mod, Nat.zero_or]

/-- Ceiling division `(x + B - 1) / B` when `B` divides `x`. -/
theorem ceil_div_of_mod_eq_zero {B x : Nat} (hB : 0 < B) (h : x % B = 0) :
    (x + B - 1) / B = x / B := by
  obtain ⟨q, hq⟩ := Nat.dvd_of_mod_eq_zero h
  subst hq
  rw [Nat.mul_div_cancel_left _ hB]
  have h1 : B * q + B - 1 = B * q + (B - 1) := by omega
  rw [h1, Nat.mul_add_div hB, Nat.div_eq_of_lt (show B - 1 < B by omega),
    Nat.add_zero]

/-- Ceiling division `(x + B - 1) / B` when `B` does not divide `x`. -/
theorem ceil_div_of_mod_ne_zero {B x : Nat} (hB : 0 < B) (h : x % B ≠ 0) :
    (x + B - 1) / B = x / B + 1 := by
  have hq := Nat.div_add_mod x B
  have hlt : x % B < B := Nat.mod_lt _ hB
  have h1 : x + B - 1 = B * (x / B + 1) + (x % B - 1) := by
    rw [Nat.mul_add, Nat.mul_one]; omega
  rw [h1, Nat.mul_add_div hB, Nat.div_eq_of_lt (show x % B - 1 < B by omega),
    Nat.add_zero]

/-- The register count returned by `span` is the ceiling
`⌈(head + len) / BITS⌉` whenever `len > 0`. -/
theorem span_count (r : Reg) (t len : Nat) (h0 : 0 < len) :
    (BitTail.span r t len).1 = (t % r.BITS + len + r.BITS - 1) / r.BITS := by
  have hB := r.BITS_pos
  have hhead := reg_head_lt r t
  rw [span_eq_alt]
  rw [if_neg (Nat.pos_iff_ne_zero.mp h0)]
  by_cases h1 : len ≤ r.BITS - t % r.BITS
  · rw [if_pos h1]
    exact (Nat.div_eq_of_lt_le (by omega) (by omega)).symm
  · rw [if_neg h1]
    have h3 : t % r.BITS + len = (len - (r.BITS - t % r.BITS)) + r.BITS := by
      omega
    by_cases h2 : (len - (r.BITS - t % r.BITS)) % r.BITS = 0
    · rw [if_pos h2, h3,
        ceil_div_of_mod_eq_zero hB (by rw [Nat.add_mod_right]; exact h2),
        Nat.add_div_right _ hB]
    · rw [if_neg h2, h3,
        ceil_div_of_mod_ne_zero hB (by rw [Nat.add_mod_right]; exact h2),
        Nat.add_div_right _ hB]

/-- `span` covers exactly `len` bits: the flat end coordinate of the
region, `(count - 1) * BITS + tail`, equals `head + len`. -/
theorem span_cover (r : Reg) (t len : Nat) (h0 : 0 < len) :
    ((BitTail.span r t len).1 - 1) * r.BITS + (BitTail.span r t len).2 =
      t % r.BITS + len := by
  have hB := r.BITS_pos
  have hhead := reg_head_lt r t
  rw [span_eq_alt]
  rw [if_neg (Nat.pos_iff_ne_zero.mp h0)]
  by_cases h1 : len ≤ r.BITS - t % r.BITS
  · rw [if_pos h1]; simp
  · rw [if_neg h1]
    by_cases h2 : (len - (r.BITS - t % r.BITS)) % r.BITS = 0
    · rw [if_pos h2]
      have hd := Nat.div_mul_cancel (Nat.dvd_of_mod_eq_zero h2)
      simp only [Nat.add_sub_cancel]
      omega
    · rw [if_neg h2]
      have hq := Nat.div_add_mod (len - (r.BITS - t % r.BITS)) r.BITS
      have h21 : (len - (r.BITS - t % r.BITS)) / r.BITS + 2 - 1 =
          (len - (r.BITS - t % r.BITS)) / r.BITS + 1 := rfl
      rw [h21, Nat.add_mul, Nat.one_mul]
      have hc : (len - (r.BITS - t % r.BITS)) / r.BITS * r.BITS =
          r.BITS * ((len - (r.BITS - t % r.BITS)) / r.BITS) := Nat.mul_comm _ _
      omega

/-- The tail returned by `span` for `len > 0` is `(head + len) mod BITS`,
except that an exact register boundary is reported as `BITS`. -/
theorem span_tail_eq (r : Reg) (t len : Nat) (h0 : 0 < len) :
    (BitTail.span r t len).2 =
      if (t % r.BITS + len) % r.BITS = 0 then r.BITS
      else (t % r.BITS + len) % r.BITS := by
  have hB := r.BITS_pos
  have hhead := reg_head_lt r t
  rw [span_eq_alt]
  rw [if_neg (Nat.pos_iff_ne_zero.mp h0)]
  by_cases h1 : len ≤ r.BITS - t % r.BITS
  · rw [if_pos h1]
    rcases Nat.lt_or_ge (t % r.BITS + len) r.BITS with hlt | hge
    · rw [Nat.mod_eq_of_lt hlt, if_neg (by omega)]
    · have heq : t % r.BITS + len = r.BITS := by omega
      rw [heq, Nat.mod_self, if_pos rfl]
  · rw [if_neg h1]
    have h3 : t % r.BITS + len = (len - (r.BITS - t % r.BITS)) + r.BITS := by
      omega
    rw [h3, Nat.add_mod_right]
    by_cases h2 : (len - (r.BITS - t % r.BITS)) % r.BITS = 0
    · rw [if_pos h2, if_pos h2]
    · rw [if_neg h2, if_neg h2]

/-- The tail returned by `span` never exceeds `BITS`. -/
theorem span_tail_le (r : Reg) (t len : Nat) (ht : t ≤ r.BITS) :
    (BitTail.span r t len).2 ≤ r.BITS := by
  rcases Nat.eq_zero_or_pos len with h0 | h0
  · rw [span_eq_alt, if_pos h0]; exact ht
  · rw [span_tail_eq r t len h0]
    by_cases h : (t % r.BITS + len) % r.BITS = 0
    · rw [if_pos h]
    · rw [if_neg h]
      exact Nat.le_of_lt (Nat.mod_lt _ r.BITS_pos)

/-! ### Signed 64-bit wrapping arithmetic -/

theorem wrap64_eq_self {x : Int} (h1 : -(2 ^ 63) ≤ x) (h2 : x < 2 ^ 63) :
    wrap64 x = x := by
  unfold wrap64
  omega

theorem wrap64_high {x : Int} (h1 : 2 ^ 63 ≤ x) (h2 : x < 2 ^ 64) :
    wrap64 x = x - 2 ^ 64 := by
  unfold wrap64
  omega

theorem reg_bits_cast (r : Reg) : ((2 : Int) ^ r.indx) = (r.BITS : Int) := by
  rw [show r.BITS = 2 ^ r.indx from rfl]
  push_cast
  ring

/-- `offset` when the signed addition neither overflows nor leaves the
origin element. -/
theorem offset_noov_in (r : Reg) (i : Nat) (d : Int)
    (h1 : -(2 ^ 63) ≤ d + i) (h2 : d + i < 2 ^ 63)
    (h3 : 0 ≤ d + i) (h4 : d + i < (r.BITS : Int)) :
    BitIdx.offset r i d = (0, (d + i).toNat) := by
  have hw : wrap64 (d + (i : Int)) = d + (i : Int) := wrap64_eq_self h1 h2
  simp only [BitIdx.offset, overflowingAdd, hw]
  rw [if_pos (by simp), if_pos ⟨h3, h4⟩]

/-- `offset` when the signed addition does not overflow but the target
bit lies outside the origin element. -/
theorem offset_noov_out (r : Reg) (i : Nat) (d : Int)
    (h1 : -(2 ^ 63) ≤ d + i) (h2 : d + i < 2 ^ 63)
    (h3 : ¬(0 ≤ d + i ∧ d + i < (r.BITS : Int))) :
    BitIdx.offset r i d =
      (Int.fdiv (d + i) ((r.BITS : Int)), ((d + i) % (r.BITS : Int)).toNat) := by
  have hw : wrap64 (d + (i : Int)) = d + (i : Int) := wrap64_eq_self h1 h2
  simp only [BitIdx.offset, overflowingAdd, hw]
  rw [if_pos (by simp), if_neg h3, reg_bits_cast]
  have hm0 : (0 : Int) ≤ (d + i) % 256 := Int.emod_nonneg _ (by norm_num)
  have hcast : (((d + i) % 256).toNat % r.BITS : Int) = (d + i) % (r.BITS : Int) := by
    push_cast [Int.toNat_of_nonneg hm0]
    exact Int.emod_emod_of_dvd _ (by exact_mod_cast r.BITS_dvd_256)
  have hmod0 : (0 : Int) ≤ (d + i) % (r.BITS : Int) :=
    Int.emod_nonneg _ (by exact_mod_cast Nat.pos_iff_ne_zero.mp r.BITS_pos)
  rw [reg_and_MASK]
  have : ((d + i) % 256).toNat % r.BITS = ((d + i) % (r.BITS : Int)).toNat := by
    omega
  rw [this]

/-- `offset` when the signed addition overflows: the sum is reinterpreted
as unsigned and logically shifted. -/
theorem offset_ov (r : Reg) (i : Nat) (d : Int)
    (h1 : 2 ^ 63 ≤ d + i) (h2 : d + i < 2 ^ 64) :
    BitIdx.offset r i d =
      ((((d + i).toNat / r.BITS : Nat) : Int), (d + i).toNat % r.BITS) := by
  have hw : wrap64 (d + (i : Int)) = d + (i : Int) - 2 ^ 64 := wrap64_high h1 h2
  simp only [BitIdx.offset, overflowingAdd, hw]
  rw [if_neg (by simp)]
  have hU : ((d + (i : Int) - 2 ^ 64) % 2 ^ 64).toNat = (d + i).toNat := by
    omega
  rw [hU, reg_shiftRight, reg_and_MASK, Nat.mod_mod_of_dvd _ r.BITS_dvd_256]
  have h8 : 8 ≤ r.BITS := by
    calc (8 : Nat) = 2 ^ 3 := rfl
      _ ≤ 2 ^ r.indx := Nat.pow_le_pow_right (by decide) r.indx_lb
  have h9 : (d + (i : Int)).toNat / r.BITS ≤ (d + (i : Int)).toNat / 8 :=
    Nat.div_le_div_left h8 (by decide)
  have hn : (d + (i : Int)).toNat / r.BITS < 2 ^ 63 := by omega
  rw [show toSigned64 ((d + (i : Int)).toNat / r.BITS)
      = (((d + (i : Int)).toNat / r.BITS : Nat) : Int) from by
    unfold toSigned64; rw [if_pos hn]]

/-- Full characterisation of `BitIdx::offset`: the destination index is a
valid index, and the pair decomposes the jump exactly:
`register_delta * BITS + new_index = i + d` (as unbounded integers, hence
in particular modulo `2 ^ 64`). -/
theorem offset_char (r : Reg) (i : Nat) (d : Int) (hi : i < r.BITS)
    (hd1 : -(2 ^ 63) ≤ d) (hd2 : d ≤ 2 ^ 63 - 1) :
    (BitIdx.offset r i d).2 < r.BITS ∧
    (BitIdx.offset r i d).1 * (r.BITS : Int) + ((BitIdx.offset r i d).2 : Int)
      = (i : Int) + d := by
  have hB := r.BITS_pos
  have hB64 := r.BITS_le_64
  have hBpos : (0 : Int) < (r.BITS : Int) := by exact_mod_cast hB
  have hs1 : -(2 ^ 63) ≤ d + (i : Int) := by omega
  by_cases hov : d + (i : Int) < 2 ^ 63
  · by_cases hin : 0 ≤ d + (i : Int) ∧ d + (i : Int) < (r.BITS : Int)
    · rw [offset_noov_in r i d hs1 hov hin.1 hin.2]
      refine ⟨by have := hin.2; omega, ?_⟩
      have h0 := hin.1
      push_cast [Int.toNat_of_nonneg h0]
      ring
    · rw [offset_noov_out r i d hs1 hov hin]
      have hmod0 : (0 : Int) ≤ (d + i) % (r.BITS : Int) :=
        Int.emod_nonneg _ (by omega)
      have hmodlt : (d + i) % (r.BITS : Int) < (r.BITS : Int) :=
        Int.emod_lt_of_pos _ hBpos
      refine ⟨by omega, ?_⟩
      rw [Int.fdiv_eq_ediv _ (le_of_lt hBpos)]
      show (d + ↑i) / (r.BITS : Int) * (r.BITS : Int) +
        ((((d + ↑i) % (r.BITS : Int)).toNat : Nat) : Int) = (i : Int) + d
      rw [Int.toNat_of_nonneg hmod0, Int.ediv_add_emod']
      ring
  · have h1' : 2 ^ 63 ≤ d + (i : Int) := by omega
    have h2' : d + (i : Int) < 2 ^ 64 := by omega
    rw [offset_ov r i d h1' h2']
    refine ⟨Nat.mod_lt _ hB, ?_⟩
    have hdmI : ((r.BITS : Int) * ((d + (i : Int)).toNat / r.BITS : Nat)
        + ((d + (i : Int)).toNat % r.BITS : Nat) : Int)
        = ((d + (i : Int)).toNat : Int) := by
      exact_mod_cast Nat.div_add_mod (d + (i : Int)).toNat r.BITS
    have ht : ((d + (i : Int)).toNat : Int) = d + i :=
      Int.toNat_of_nonneg (by omega)
    show (((d + (i : Int)).toNat / r.BITS : Nat) : Int) * (r.BITS : Int)
      + (((d + (i : Int)).toNat % r.BITS : Nat) : Int) = (i : Int) + d
    linear_combination hdmI + ht

/-! ### Selector folds and population count -/

/-- Folding the one-hot selectors `1 <<< p` for `p < n` with bitwise `or`
from zero accumulates the low `n` bits. -/
theorem fold_or_two_pow (n : Nat) :
    List.foldl BitMask.combine BitMask.ZERO
      ((List.range n).map BitPos.select) = 2 ^ n - 1 := by
  induction n with
  | zero => rfl
  | succ n ih =>
    rw [List.range_succ, List.map_append, List.foldl_append, ih]
    show BitMask.combine (2 ^ n - 1) (BitPos.select n) = 2 ^ (n + 1) - 1
    have hs : BitPos.select n = 2 ^ n := by
      unfold BitPos.select; rw [Nat.shiftLeft_eq, Nat.one_mul]
    show (2 ^ n - 1) ||| BitPos.select n = 2 ^ (n + 1) - 1
    rw [hs]
    apply Nat.eq_of_testBit_eq
    intro i
    rw [Nat.testBit_lor, Nat.testBit_two_pow_sub_one, Nat.testBit_two_pow_sub_one,
      Nat.testBit_two_pow]
    rw [show decide (i < n + 1) = decide (i < n ∨ n = i) from
      decide_eq_decide.mpr (by omega), Bool.decide_or]

theorem count_ones_zero : BitSel.count_ones 0 = 0 := by
  rw [BitSel.count_ones]; rfl

theorem count_ones_eq_zero (n : Nat) : BitSel.count_ones n = 0 ↔ n = 0 := by
  induction n using Nat.strongRecOn with
  | ind n ih =>
    rw [BitSel.count_ones]
    by_cases h : n = 0
    · simp [h]
    · rw [if_neg h]
      constructor
      · intro he
        have h2 : BitSel.count_ones (n / 2) = 0 := by omega
        have h3 : n / 2 = 0 :=
          (ih (n / 2) (Nat.div_lt_self (Nat.pos_of_ne_zero h) (by decide))).mp h2
        omega
      · intro he; exact absurd he h

/-- A register value has population count one exactly when it is a power
of two (i.e. a one-hot selector). -/
theorem count_ones_eq_one (n : Nat) : BitSel.count_ones n = 1 ↔ ∃ k, n = 2 ^ k := by
  induction n using Nat.strongRecOn with
  | ind n ih =>
    by_cases h : n = 0
    · subst h
      rw [count_ones_zero]
      constructor
      · intro hc; exact absurd hc (by decide)
      · rintro ⟨k, hk⟩
        exact absurd hk.symm (Nat.pos_iff_ne_zero.mp (Nat.pos_pow_of_pos k (by decide)))
    · rw [BitSel.count_ones, if_neg h]
      have hdl : n / 2 < n := Nat.div_lt_self (Nat.pos_of_ne_zero h) (by decide)
      rcases Nat.mod_two_eq_zero_or_one n with he | ho
      · constructor
        · intro hl
          have h2 : BitSel.count_ones (n / 2) = 1 := by omega
          obtain ⟨k, hk⟩ := (ih (n / 2) hdl).mp h2
          refine ⟨k + 1, ?_⟩
          rw [pow_succ]
          omega
        · rintro ⟨k, hk⟩
          cases k with
          | zero => exact absurd (by omega : n % 2 = 1) (by omega)
          | succ k' =>
            rw [pow_succ] at hk
            have hdiv : n / 2 = 2 ^ k' := by omega
            have h2 := (ih (n / 2) hdl).mpr ⟨k', hdiv⟩
            omega
      · constructor
        · intro hl
          have h2 : BitSel.count_ones (n / 2) = 0 := by omega
          have h3 : n / 2 = 0 := (count_ones_eq_zero _).mp h2
          have h4 : n = 1 := by omega
          exact ⟨0, by simpa using h4⟩
        · rintro ⟨k, hk⟩
          cases k with
          | zero =>
            have h1 : n = 1 := by simpa using hk
            subst h1
            rw [show (1 : Nat) / 2 = 0 from rfl, count_ones_zero]
          | succ k' =>
            rw [pow_succ] at hk
            exact absurd ho (by omega)

/-- A selector's bits are contained in any mask it has been combined
into: `(m ||| s) &&& s = s`. -/
theorem mask_and_or_self (m s : Nat) : (m ||| s) &&& s = s := by
  apply Nat.eq_of_testBit_eq
  intro i
  rw [Nat.testBit_land, Nat.testBit_lor]
  cases m.testBit i <;> cases s.testBit i <;> rfl

/-! ### The claims -/

/-- Claim C1: for every tail `t ≤ BITS` and length `n`, `Tail(t).span(n)`
returns `(0, t)` when `n = 0`; otherwise, with `head = t mod BITS`, the
span covers exactly `n` bits (`(c - 1) * BITS + tail = head + n`), the
returned tail is at most `BITS`, and the register count is
`⌈(head + n) / BITS⌉`; for `t = 0` the count is `⌈n / BITS⌉` and the tail
is `n mod BITS`, or `BITS` when `n > 0` is an exact multiple of `BITS`. -/
theorem claim_C1 (r : Reg) (t n : Nat) (ht : t ≤ r.BITS) :
    (n = 0 → BitTail.span r t n = (0, t)) ∧
    (0 < n →
      (BitTail.span r t n).2 ≤ r.BITS ∧
      ((BitTail.span r t n).1 - 1) * r.BITS + (BitTail.span r t n).2
        = t % r.BITS + n ∧
      (BitTail.span r t n).1 = (t % r.BITS + n + r.BITS - 1) / r.BITS) ∧
    (t = 0 → 0 < n →
      (BitTail.span r t n).1 = (n + r.BITS - 1) / r.BITS ∧
      (BitTail.span r t n).2
        = if n % r.BITS = 0 then r.BITS else n % r.BITS) := by
  refine ⟨fun h0 => by rw [span_eq_alt, if_pos h0], fun h0 =>
    ⟨span_tail_le r t n ht, span_cover r t n h0, span_count r t n h0⟩, ?_⟩
  rintro rfl h0
  constructor
  · rw [span_count r 0 n h0, Nat.zero_mod, Nat.zero_add]
  · rw [span_tail_eq r 0 n h0, Nat.zero_mod, Nat.zero_add]

/-- Witness for C1 at `u8`, `t = 0`, `n = 12`. -/
theorem claim_C1_witness :
    ((12 : Nat) = 0 → BitTail.span regU8 0 12 = (0, 0)) ∧
    (0 < 12 →
      (BitTail.span regU8 0 12).2 ≤ regU8.BITS ∧
      ((BitTail.span regU8 0 12).1 - 1) * regU8.BITS + (BitTail.span regU8 0 12).2
        = 0 % regU8.BITS + 12 ∧
      (BitTail.span regU8 0 12).1 = (0 % regU8.BITS + 12 + regU8.BITS - 1) / regU8.BITS) ∧
    ((0 : Nat) = 0 → 0 < 12 →
      (BitTail.span regU8 0 12).1 = (12 + regU8.BITS - 1) / regU8.BITS ∧
      (BitTail.span regU8 0 12).2
        = if 12 % regU8.BITS = 0 then regU8.BITS else 12 % regU8.BITS) :=
  claim_C1 regU8 0 12 (by decide)

/-- Claim C2: for every index `i < BITS` and signed 64-bit `d`,
`offset` returns a valid destination index and satisfies
`register_delta * BITS + new_index ≡ i + d (mod 2 ^ 64)` — including when
the signed addition overflows; in particular
`SemIndex of u32 at 31 offset by isize max` is `((max >> 5) + 1, 30)`. -/
theorem claim_C2 (r : Reg) (i : Nat) (d : Int) (hi : i < r.BITS)
    (hd1 : -(2 ^ 63) ≤ d) (hd2 : d ≤ 2 ^ 63 - 1) :
    (BitIdx.offset r i d).2 < r.BITS ∧
    ((BitIdx.offset r i d).1 * (r.BITS : Int) + ((BitIdx.offset r i d).2 : Int))
        % 2 ^ wordBits = ((i : Int) + d) % 2 ^ wordBits ∧
    BitIdx.offset regU32 31 (2 ^ 63 - 1)
      = (Int.fdiv (2 ^ 63 - 1) (2 ^ 5) + 1, 30) := by
  obtain ⟨h1, h2⟩ := offset_char r i d hi hd1 hd2
  exact ⟨h1, by rw [h2], by decide⟩

/-- Witness for C2 at the overflow scenario S8. -/
theorem claim_C2_witness :
    (BitIdx.offset regU32 31 (2 ^ 63 - 1)).2 < regU32.BITS ∧
    ((BitIdx.offset regU32 31 (2 ^ 63 - 1)).1 * (regU32.BITS : Int) +
      ((BitIdx.offset regU32 31 (2 ^ 63 - 1)).2 : Int)) % 2 ^ wordBits
      = (((31 : Nat) : Int) + (2 ^ 63 - 1)) % 2 ^ wordBits ∧
    BitIdx.offset regU32 31 (2 ^ 63 - 1)
      = (Int.fdiv (2 ^ 63 - 1) (2 ^ 5) + 1, 30) :=
  claim_C2 regU32 31 (2 ^ 63 - 1) (by decide) (by decide) (by decide)

/-- Counterexample to claim C3 as stated: at `u8`, `t = 4`, `len = 12`
(so `tail_bits = 0`, `full_middle = 1`), the code returns register count
`2`, not `1 + full_middle + 1 = 3`. -/
theorem claim_C3_counterexample :
    ¬ (BitTail.span regU8 4 12
        = (1 + ((12 - (regU8.BITS - (4 &&& regU8.MASK))) >>> regU8.indx) + 1,
           regU8.BITS)) := by decide

/-- Claim C3 (amended): in the boundary case (`len` spills past the head
register and the remainder is an exact multiple of `BITS`), `span`
returns register count `1 + full_middle` — the head register plus the
full middle registers, with no extra `+1` — and tail marker `BITS`. -/
theorem claim_C3 (r : Reg) (t len : Nat) (ht : t ≤ r.BITS)
    (h1 : r.BITS - t % r.BITS < len)
    (h2 : (len - (r.BITS - t % r.BITS)) % r.BITS = 0) :
    BitTail.span r t len
      = (1 + (len - (r.BITS - t % r.BITS)) >>> r.indx, r.BITS) := by
  have hhead := reg_head_lt r t
  rw [span_eq_alt, if_neg (show ¬ len = 0 by omega),
    if_neg (show ¬ len ≤ r.BITS - t % r.BITS by omega), if_pos h2,
    reg_shiftRight, Nat.add_comm]

/-- Witness for C3 (amended) at `u8`, `t = 4`, `len = 12`. -/
theorem claim_C3_witness :
    BitTail.span regU8 4 12
      = (1 + (12 - (regU8.BITS - 4 % regU8.BITS)) >>> regU8.indx, regU8.BITS) :=
  claim_C3 regU8 4 12 (by decide) (by decide) (by decide)

/-- Claim C4: for `i < BITS`, `next` yields `((i + 1) mod BITS, carry)`
with carry exactly when `i + 1 = BITS`, and `prev` yields
`((i - 1) mod BITS, borrow)` with borrow exactly when `i = 0`. -/
theorem claim_C4 (r : Reg) (i : Nat) (hi : i < r.BITS) :
    (BitIdx.next r i).1 = (i + 1) % r.BITS ∧
    ((BitIdx.next r i).2 = true ↔ i + 1 = r.BITS) ∧
    (BitIdx.prev r i).1 = (i + r.BITS - 1) % r.BITS ∧
    ((BitIdx.prev r i).2 = true ↔ i = 0) := by
  have hB := r.BITS_pos
  have hB64 := r.BITS_le_64
  refine ⟨?_, ?_, ?_, ?_⟩
  · show ((i + 1) % 256) &&& r.MASK = (i + 1) % r.BITS
    rw [reg_and_MASK, Nat.mod_mod_of_dvd _ r.BITS_dvd_256]
  · show (((i + 1) % 256 == r.BITS) = true) ↔ i + 1 = r.BITS
    rw [Nat.mod_eq_of_lt (show i + 1 < 256 by omega)]
    exact beq_iff_eq
  · show ((i + 255) % 256) &&& r.MASK = (i + r.BITS - 1) % r.BITS
    rw [reg_and_MASK, Nat.mod_mod_of_dvd _ r.BITS_dvd_256]
    obtain ⟨c, hc⟩ := Nat.dvd_sub' r.BITS_dvd_256 (dvd_refl r.BITS)
    have hsplit : i + 255 = (i + r.BITS - 1) + (256 - r.BITS) := by omega
    rw [hsplit, Nat.add_mod, hc, Nat.mul_mod_right, Nat.add_zero,
      Nat.mod_mod_of_dvd _ (dvd_refl r.BITS)]
  · show ((i == 0) = true) ↔ i = 0
    exact beq_iff_eq

/-- Witness for C4 at `u8`, `i = 7` (scenarios S6/S7). -/
theorem claim_C4_witness :
    (BitIdx.next regU8 7).1 = (7 + 1) % regU8.BITS ∧
    ((BitIdx.next regU8 7).2 = true ↔ 7 + 1 = regU8.BITS) ∧
    (BitIdx.prev regU8 7).1 = (7 + regU8.BITS - 1) % regU8.BITS ∧
    ((BitIdx.prev regU8 7).2 = true ↔ (7 : Nat) = 0) :=
  claim_C4 regU8 7 (by decide)

/-- Claim C5: summing the full list of one-hot selectors into a mask
(starting from `ZERO`, combining by bitwise or) yields `ALL`, and the
register-width complement of `ALL` is `ZERO`, for every register kind. -/
theorem claim_C5 (r : Reg) :
    BitMask.sum (BitSel.range_all r) = r.ALL ∧
    BitMask.rnot r r.ALL = BitMask.ZERO := by
  constructor
  · exact fold_or_two_pow r.BITS
  · exact Nat.xor_self _

/-- Witness for C5 at `u8` (scenario S13). -/
theorem claim_C5_witness :
    BitMask.sum (BitSel.range_all regU8) = regU8.ALL ∧
    BitMask.rnot regU8 regU8.ALL = BitMask.ZERO :=
  claim_C5 regU8

/-- Claim C6: checked index construction succeeds exactly on `v < BITS`,
returning the value itself, and fails on `v ≥ BITS` with an error
carrying the offending byte `v`. -/
theorem claim_C6 (r : Reg) (v : Nat) (hv : v < 256) :
    (v < r.BITS → BitIdx.new r v = Except.ok v) ∧
    (r.BITS ≤ v → BitIdx.new r v = Except.error v) := by
  constructor
  · intro h
    unfold BitIdx.new
    rw [if_neg (by omega)]
  · intro h
    unfold BitIdx.new
    rw [if_pos h]

/-- Witness for C6 at `u8`, `v = 8` (scenario S1). -/
theorem claim_C6_witness :
    ((8 : Nat) < regU8.BITS → BitIdx.new regU8 8 = Except.ok 8) ∧
    (regU8.BITS ≤ 8 → BitIdx.new regU8 8 = Except.error 8) :=
  claim_C6 regU8 8 (by decide)

/-- Claim C7: `Tail::new` accepts exactly `v ≤ BITS` (returning `Some v`,
including the boundary `v = BITS`) and returns `None` exactly on
`v > BITS`. -/
theorem claim_C7 (r : Reg) (v : Nat) :
    (v ≤ r.BITS → BitTail.new r v = some v) ∧
    (r.BITS < v → BitTail.new r v = none) ∧
    BitTail.new r r.BITS = some r.BITS := by
  refine ⟨?_, ?_, ?_⟩
  · intro h
    unfold BitTail.new
    rw [if_neg (by omega)]
  · intro h
    unfold BitTail.new
    rw [if_pos h]
  · unfold BitTail.new
    rw [if_neg (by omega)]

/-- Witness for C7 at `u8`, `v = 9`. -/
theorem claim_C7_witness :
    ((9 : Nat) ≤ regU8.BITS → BitTail.new regU8 9 = some 9) ∧
    (regU8.BITS < 9 → BitTail.new regU8 9 = none) ∧
    BitTail.new regU8 regU8.BITS = some regU8.BITS :=
  claim_C7 regU8 9

/-- Claim C8: `Selector::new(x)` succeeds exactly when `popcount x = 1`
(equivalently, when `x` is a power of two), and returns the sentinel
`none` — not an error — on every other input, including `x = 0`. -/
theorem claim_C8 (r : Reg) (x : Nat) (hx : x < 2 ^ r.BITS) :
    ((BitSel.new x).isSome ↔ BitSel.count_ones x = 1) ∧
    ((BitSel.new x).isSome ↔ ∃ k, x = 2 ^ k) ∧
    (BitSel.count_ones x ≠ 1 → BitSel.new x = none) ∧
    BitSel.new 0 = none := by
  have h1 : (BitSel.new x).isSome ↔ BitSel.count_ones x = 1 := by
    unfold BitSel.new
    by_cases h : BitSel.count_ones x = 1
    · rw [if_neg (not_not_intro h)]
      simp [h]
    · rw [if_pos h]
      simp [h]
  refine ⟨h1, by rw [h1]; exact count_ones_eq_one x, ?_, ?_⟩
  · intro h
    unfold BitSel.new
    rw [if_pos h]
  · unfold BitSel.new
    rw [if_pos (by rw [count_ones_zero]; decide)]

/-- Witness for C8 at `u8`, `x = 3` (scenario S12). -/
theorem claim_C8_witness :
    ((BitSel.new 3).isSome ↔ BitSel.count_ones 3 = 1) ∧
    ((BitSel.new 3).isSome ↔ ∃ k, (3 : Nat) = 2 ^ k) ∧
    (BitSel.count_ones 3 ≠ 1 → BitSel.new 3 = none) ∧
    BitSel.new 0 = none :=
  claim_C8 regU8 3 (by decide)

/-- Claim C9: under the type invariants, every unchecked construction in
`next`, `prev`, `offset` and `span` receives an in-range argument —
indices stay below `BITS`, tails stay at most `BITS` — and the unguarded
`u8` addition in `next` cannot overflow. -/
theorem claim_C9 (r : Reg) (i t len : Nat) (d : Int)
    (hi : i < r.BITS) (ht : t ≤ r.BITS)
    (hd1 : -(2 ^ 63) ≤ d) (hd2 : d ≤ 2 ^ 63 - 1) :
    i + 1 < 256 ∧
    (BitIdx.next r i).1 < r.BITS ∧
    (BitIdx.prev r i).1 < r.BITS ∧
    (BitIdx.offset r i d).2 < r.BITS ∧
    (BitTail.span r t len).2 ≤ r.BITS ∧
    (BitIdx.span r i len).2 ≤ r.BITS := by
  have hB := r.BITS_pos
  have hB64 := r.BITS_le_64
  refine ⟨by omega, ?_, ?_, (offset_char r i d hi hd1 hd2).1,
    span_tail_le r t len ht, span_tail_le r i len (Nat.le_of_lt hi)⟩
  · show ((i + 1) % 256) &&& r.MASK < r.BITS
    rw [reg_and_MASK]
    exact Nat.mod_lt _ hB
  · show ((i + 255) % 256) &&& r.MASK < r.BITS
    rw [reg_and_MASK]
    exact Nat.mod_lt _ hB

/-- Witness for C9 at `u8`, `i = 7`, `t = 8`, `len = 5`, `d = -9`. -/
theorem claim_C9_witness :
    (7 : Nat) + 1 < 256 ∧
    (BitIdx.next regU8 7).1 < regU8.BITS ∧
    (BitIdx.prev regU8 7).1 < regU8.BITS ∧
    (BitIdx.offset regU8 7 (-9)).2 < regU8.BITS ∧
    (BitTail.span regU8 8 5).2 ≤ regU8.BITS ∧
    (BitIdx.span regU8 7 5).2 ≤ regU8.BITS :=
  claim_C9 regU8 7 8 5 (-9) (by decide) (by decide) (by decide) (by decide)

/-- Claim C10: for any mask `m` and one-hot selector `s`, the combined
mask tests positive at `s`, insertion makes the mask test positive at
`s`, and `combine` is idempotent. -/
theorem claim_C10 (m s : Nat) (hs : BitSel.count_ones s = 1) :
    BitMask.test (BitMask.combine m s) s = true ∧
    BitMask.test (BitMask.insert m s) s = true ∧
    BitMask.combine (BitMask.combine m s) s = BitMask.combine m s := by
  have hs0 : s ≠ 0 := by
    intro h
    rw [h, count_ones_zero] at hs
    exact absurd hs (by decide)
  have hand : (m ||| s) &&& s = s := mask_and_or_self m s
  refine ⟨?_, ?_, ?_⟩
  · show ((m ||| s) &&& s != 0) = true
    rw [hand]
    simpa using hs0
  · show ((m ||| s) &&& s != 0) = true
    rw [hand]
    simpa using hs0
  · show (m ||| s) ||| s = m ||| s
    rw [Nat.or_assoc, Nat.or_self]

/-- Witness for C10 at `m = 5`, `s = 2`. -/
theorem claim_C10_witness :
    BitMask.test (BitMask.combine 5 2) 2 = true ∧
    BitMask.test (BitMask.insert 5 2) 2 = true ∧
    BitMask.combine (BitMask.combine 5 2) 2 = BitMask.combine 5 2 :=
  claim_C10 5 2 (by simp [BitSel.count_ones])
